import Mathlib

/-!
Verification of `tophatbot` (src/tophatbot/bot.py and src/main.py).

The development shallowly embeds the bot's pure logic:
* Python string primitives (`str.split`, `str.startswith`, `in`,
  lexicographic comparison) are modelled on `List Char` / `String`;
* question payloads, the per-type answer derivation of
  `TopHatBot.load_question_data`, the accumulated question dictionary,
  `TopHatBot.answer_question`, the chapter filtering of `Psych210Bot`,
  and the construction-time handshake failures.

Network effects are modelled by passing the remote responses in as data;
`random.choice` is modelled by an index oracle.
-/

namespace TopHat

/-! ## Python string primitives -/

/-- Code-point comparison of characters, as Python compares characters of a
string (by Unicode code point). -/
def charLt (a b : Char) : Bool :=
  decide (a < b)

/-- Lexicographic strict comparison of character lists: Python's `<` on
strings. -/
def lexLt : List Char → List Char → Bool
  | _, [] => false
  | [], _ :: _ => true
  | a :: as, b :: bs => charLt a b || (a == b && lexLt as bs)

/-- Python `s1 < s2` on strings. -/
def strLt (a b : String) : Bool :=
  lexLt a.data b.data

/-- Python `s1 <= s2` on strings. -/
def strLe (a b : String) : Bool :=
  strLt a b || a == b

/-- Python `s.startswith(pre)` for a single string argument. -/
def pyStartsWith (s pre : String) : Bool :=
  pre.data.isPrefixOf s.data

/-- Character-list substring test: does `sub` occur contiguously in `s`? -/
def listContains (sub : List Char) : List Char → Bool
  | [] => sub.isEmpty
  | c :: rest => sub.isPrefixOf (c :: rest) || listContains sub rest

/-- Python `sub in s` (substring containment). -/
def pyContains (s sub : String) : Bool :=
  listContains sub.data s.data

/-- Worker for `pySplit`: splits `rest` at each leftmost occurrence of the
(nonempty) separator `sep`, accumulating the current piece in reversed
order in `acc`. `fuel` bounds the recursion; it is initialised to the
length of the input, which suffices because every step consumes at least
one character. -/
def pySplitGo (sep : List Char) : Nat → List Char → List Char → List (List Char)
  | _, acc, [] => [acc.reverse]
  | 0, acc, rest => [acc.reverse ++ rest]
  | fuel + 1, acc, c :: rest =>
    if sep.isPrefixOf (c :: rest) then
      acc.reverse :: pySplitGo sep fuel [] ((c :: rest).drop sep.length)
    else
      pySplitGo sep fuel (c :: acc) rest

/-- Python `s.split(sep)` for a nonempty separator: splits on every
non-overlapping leftmost occurrence, keeping empty pieces. -/
def pySplit (s sep : String) : List String :=
  (pySplitGo sep.data s.data.length [] s.data).map List.asString

/-! ## Question payloads and the answer dictionary entry -/

/-- JSON-ish scalar used for the `has_correct_answer` field, so that the
Python identity test `question["has_correct_answer"] is False` can be
modelled faithfully on non-boolean values as well. -/
inductive JVal where
  | jbool : Bool → JVal
  | jnull : JVal
  | jnum : Int → JVal
  | jstr : String → JVal
deriving DecidableEq

/-- Python `v is False`: true exactly on the boolean literal `False`. -/
def isFalseLit : JVal → Bool
  | JVal.jbool false => true
  | _ => false

/-- Shape of the `correct_answers` field: either a JSON list of strings or a
JSON object (a Python dict from blank-key to value). -/
inductive CorrectAnswers where
  | list : List String → CorrectAnswers
  | map : List (String × String) → CorrectAnswers
deriving DecidableEq

/-- Derived answer value stored in the question dictionary. The branches
that split or pick produce a list of strings; the verbatim branches
(`mc` and the unrecognized-type fallback) keep the raw field, which may
be a dict. -/
inductive AnsVal where
  | strs : List String → AnsVal
  | dict : List (String × String) → AnsVal
deriving DecidableEq

/-- One question object of the question-data response. -/
structure Question where
  id : Nat
  question : String
  type : String
  has_correct_answer : JVal
  choices : List String
  correct_answers : CorrectAnswers
deriving DecidableEq

/-- Iterating Python's `correct_answers`: a list yields its elements, a dict
yields its keys in insertion order. -/
def caStrings : CorrectAnswers → List String
  | CorrectAnswers.list l => l
  | CorrectAnswers.map m => m.map Prod.fst

/-- Using the `correct_answers` field verbatim as the answer. -/
def caVerbatim : CorrectAnswers → AnsVal
  | CorrectAnswers.list l => AnsVal.strs l
  | CorrectAnswers.map m => AnsVal.dict m

/-- Python `random.choice(l)` with the randomness supplied as an index
oracle `r`; `none` models the `IndexError` raised on an empty sequence. -/
def randomChoice (l : List String) (r : Nat) : Option String :=
  l.get? (r % l.length)

/-- Python tuple comparison `(k1, v1) <= (k2, v2)`: lexicographic on the
components. -/
def pairLe (a b : String × String) : Bool :=
  strLt a.1 b.1 || (a.1 == b.1 && strLe a.2 b.2)

/-- The `pairLe` order as a decidable relation, to drive the sort. -/
def PairLeR (a b : String × String) : Prop :=
  pairLe a b = true

instance : DecidableRel PairLeR := fun a b => by
  unfold PairLeR
  infer_instance

/-- Python `sorted` on the `(key, value)` items of a dict: a stable
ascending sort by the lexicographic tuple order. -/
def sortPairs (l : List (String × String)) : List (String × String) :=
  List.insertionSort PairLeR l

/-- Answer derivation of `TopHatBot.load_question_data` for one question:
the chained `if`/`elif` dispatch of bot.py lines 107-144. `r` is the
index oracle feeding `random.choice`; `none` models a raised exception. -/
def deriveAnswer (q : Question) (r : Nat) : Option AnsVal :=
  if isFalseLit q.has_correct_answer then
    (randomChoice q.choices r).map (fun c => AnsVal.strs [c])
  else if q.type == "match" then
    some (AnsVal.strs ((caStrings q.correct_answers).flatMap (fun s => pySplit s "|,,| ")))
  else if q.type == "sort" then
    some (AnsVal.strs ((caStrings q.correct_answers).flatMap (fun s => pySplit s ", ")))
  else if q.type == "wa" || q.type == "na" then
    match q.correct_answers with
    | CorrectAnswers.list l => (randomChoice l r).map (fun c => AnsVal.strs [c])
    | CorrectAnswers.map _ => none
  else if q.type == "fitbq" then
    match q.correct_answers with
    | CorrectAnswers.list _ => none
    | CorrectAnswers.map m => some (AnsVal.strs ((sortPairs m).map Prod.snd))
  else if q.type == "mc" then
    some (caVerbatim q.correct_answers)
  else
    some (caVerbatim q.correct_answers)

/-! ## The accumulated question dictionary -/

/-- One stored entry of `self._questions`: the dict built at the end of the
loop body of `load_question_data`. -/
structure QEntry where
  question : String
  answer : AnsVal
  type : String
  has_correct_answer : JVal
deriving DecidableEq

/-- The accumulated question dictionary `self._questions`, modelled as an
insertion-ordered association list with unique keys, as a Python dict. -/
abbrev QMap := List (Nat × QEntry)

/-- Python `k in d` on the dictionary. -/
def hasKey : QMap → Nat → Bool
  | [], _ => false
  | p :: ps, k => p.1 == k || hasKey ps k

/-- Python `d[k]` on the dictionary, `none` modelling a `KeyError`. -/
def getKey? : QMap → Nat → Option QEntry
  | [], _ => none
  | p :: ps, k => if p.1 == k then some p.2 else getKey? ps k

/-- Python `d[k] = v`: replaces the value at an existing key in place,
otherwise appends the pair at the end (insertion order). -/
def setKey : QMap → Nat → QEntry → QMap
  | [], k, v => [(k, v)]
  | p :: ps, k, v => if p.1 == k then (k, v) :: ps else p :: setKey ps k v

/-- Python `d.update(data)`: assigns every item of `data` in order. -/
def updateMap (m data : QMap) : QMap :=
  data.foldl (fun acc p => setKey acc p.1 p.2) m

/-- Loop of `TopHatBot.load_question_data` over the fetched question list:
skips questions whose id is already in the accumulated dictionary `m`,
derives an answer for the rest into the fresh dict `data`, and finally
merges `data` into `m`. `r` supplies the `random.choice` oracle for the
question at each list position `i`; `none` models an exception raised
during derivation, in which case the final `update` never runs. -/
def loadGo (m : QMap) (r : Nat → Nat) : Nat → List Question → QMap → Option QMap
  | _, [], data => some (updateMap m data)
  | i, q :: rest, data =>
    if hasKey m q.id then
      loadGo m r (i + 1) rest data
    else
      match deriveAnswer q (r i) with
      | none => none
      | some a =>
        loadGo m r (i + 1) rest
          (setKey data q.id ⟨q.question, a, q.type, q.has_correct_answer⟩)

/-- `TopHatBot.load_question_data`, with the server's question list for the
chapter passed in as `qs` and the accumulated dictionary as `m`. -/
def load_question_data (m : QMap) (qs : List Question) (r : Nat → Nat) : Option QMap :=
  loadGo m r 0 qs []

/-! ## Submitting an answer -/

/-- Observable outcome of `TopHatBot.answer_question`: the lines printed,
the POST performed (question id and answer payload), if any, and the
returned value (`none` is Python's `None`). -/
structure AnswerOutcome where
  printed : List String
  submitted : Option (Nat × AnsVal)
  result : Option String
deriving DecidableEq

/-- `TopHatBot.answer_question`: looks the id up in the accumulated
dictionary; on a `KeyError` prints a message and returns `None`,
otherwise POSTs the stored answer and returns the response body
(supplied here as `respText`). The dictionary is returned unchanged. -/
def answer_question (m : QMap) (questionId : Nat) (respText : String) :
    AnswerOutcome × QMap :=
  match getKey? m questionId with
  | none =>
    (⟨["Question ID has not been loaded: " ++ Nat.repr questionId], none, none⟩, m)
  | some entry =>
    (⟨[], some (questionId, entry.answer), some respText⟩, m)

/-! ## Chapter filtering of Psych210Bot -/

/-- `Psych210Bot.required_chapters`: the chapters whose display name starts
with `"Chapter"` and does not contain `"OPTIONAL"`. The chapter mapping
is the insertion-ordered dict of display name to id. -/
def required_chapters (chapters : List (String × Nat)) : List (String × Nat) :=
  chapters.filter
    (fun p => pyStartsWith p.1 "Chapter" && !pyContains p.1 "OPTIONAL")

/-- Result of `tuple(f"Chapter {i}" for i in chapters) or ""`: either a
tuple of prefixes or, when the tuple is empty, the plain string `""`. -/
inductive StrOrTuple where
  | str : String → StrOrTuple
  | tup : List String → StrOrTuple

/-- Python `s.startswith(x)` where `x` is a string or a tuple of strings. -/
def pyStartsWithAny (s : String) : StrOrTuple → Bool
  | StrOrTuple.str p => pyStartsWith s p
  | StrOrTuple.tup ps => ps.any (fun p => pyStartsWith s p)

/-- The `valid_prefixes` value of `Psych210Bot._load_chapters`. -/
def validPrefixes (chapterNums : List Nat) : StrOrTuple :=
  let ps := chapterNums.map (fun i => "Chapter " ++ Nat.repr i)
  if ps.isEmpty then StrOrTuple.str "" else StrOrTuple.tup ps

/-- The chapters `Psych210Bot._load_chapters` selects for loading: the
required chapters whose name passes the `valid_prefixes` test. The
argument mirrors the Python default `chapters=None`, replaced by `[]`
at the top of the function. -/
def loadChaptersSelect (chapters : List (String × Nat))
    (chapterNums : Option (List Nat)) : List (String × Nat) :=
  let nums := chapterNums.getD []
  (required_chapters chapters).filter
    (fun p => pyStartsWithAny p.1 (validPrefixes nums))

/-- `Psych210Bot._load_chapters` end to end: folds `load_question_data`
over the selected chapters. `qdata` gives the server's question list per
chapter id and `r` the `random.choice` oracle per chapter position. -/
def loadChaptersRun (chapters : List (String × Nat))
    (chapterNums : Option (List Nat)) (qdata : Nat → List Question)
    (r : Nat → Nat → Nat) (m : QMap) : Option QMap :=
  (loadChaptersSelect chapters chapterNums).enum.foldl
    (fun om pc => om.bind (fun acc => load_question_data acc (qdata pc.2.2) (r pc.1)))
    (some m)

/-! ## Client construction -/

/-- The two fatal construction-time failures of `TopHatBot.__init__`:
the `assert "csrftoken" in self.session.cookies` of `_load_csrf_cookie`
and the `r.headers["TH_JWT"]` `KeyError` of `_login`. -/
inductive SetupError where
  | missingCsrfCookie : SetupError
  | missingJwtHeader : SetupError
deriving DecidableEq

/-- Remote responses consumed during construction: the cookie set by the
CSRF bootstrap (if any), the `TH_JWT` header of the login response (if
any), and the chapter tree. -/
structure HttpEnv where
  csrfCookie : Option String
  loginJwt : Option String
  chapterPairs : List (String × Nat)

/-- A fully constructed client: headers installed on the session, the
cached chapter mapping, and the empty question dictionary. -/
structure Client where
  csrfHeader : String
  authHeader : String
  chapters : List (String × Nat)
  questions : QMap

/-- `TopHatBot.__init__` as a function of the remote responses: reads the
CSRF cookie (aborting when absent), then the login token header
(aborting when absent), then caches the chapter mapping and initialises
`self._questions = {}`. Errors abort construction with no client. -/
def constructClient (env : HttpEnv) : Except SetupError Client :=
  match env.csrfCookie with
  | none => Except.error SetupError.missingCsrfCookie
  | some tok =>
    match env.loginJwt with
    | none => Except.error SetupError.missingJwtHeader
    | some jwt =>
      Except.ok ⟨tok, "Bearer " ++ jwt, env.chapterPairs, ([] : List (Nat × QEntry))⟩

/-! ## Claims about the per-type answer derivation -/

/-- C2: for a question with a known correct answer and type `"match"`, the
derived answer concatenates, in order over the correct-answer strings,
the parts obtained by splitting each string on the literal delimiter
`"|,,| "`. -/
theorem derive_match_splits (q : Question) (r : Nat) (l : List String)
    (hty : q.type = "match") (hca : q.has_correct_answer = JVal.jbool true)
    (hl : q.correct_answers = CorrectAnswers.list l) :
    deriveAnswer q r = some (AnsVal.strs (l.flatMap (fun s => pySplit s "|,,| "))) := by
  simp [deriveAnswer, hty, hca, hl, isFalseLit, caStrings]

def qMatchEx : Question :=
  ⟨10, "m", "match", JVal.jbool true, [], CorrectAnswers.list ["a|,,| b", "c|,,| d"]⟩

/-- Witness for C2: on correct answers `["a|,,| b", "c|,,| d"]` the derived
answer is `["a", "b", "c", "d"]`. -/
theorem derive_match_splits_witness :
    deriveAnswer qMatchEx 0 = some (AnsVal.strs ["a", "b", "c", "d"]) := by
  have h := derive_match_splits qMatchEx 0 ["a|,,| b", "c|,,| d"] rfl rfl rfl
  rw [h]
  decide

/-- C3: for a question with a known correct answer and type `"sort"`, the
derived answer concatenates, in order over the correct-answer strings,
the parts obtained by splitting each string on `", "`. -/
theorem derive_sort_splits (q : Question) (r : Nat) (l : List String)
    (hty : q.type = "sort") (hca : q.has_correct_answer = JVal.jbool true)
    (hl : q.correct_answers = CorrectAnswers.list l) :
    deriveAnswer q r = some (AnsVal.strs (l.flatMap (fun s => pySplit s ", "))) := by
  simp [deriveAnswer, hty, hca, hl, isFalseLit, caStrings]

def qSortEx : Question :=
  ⟨11, "s", "sort", JVal.jbool true, [], CorrectAnswers.list ["x, y", "z"]⟩

/-- Witness for C3: on correct answers `["x, y", "z"]` the derived answer is
`["x", "y", "z"]`. -/
theorem derive_sort_splits_witness :
    deriveAnswer qSortEx 0 = some (AnsVal.strs ["x", "y", "z"]) := by
  have h := derive_sort_splits qSortEx 0 ["x, y", "z"] rfl rfl rfl
  rw [h]
  decide

/-- C5: when `has_correct_answer` is the boolean `False`, regardless of the
declared type, any derived answer is a single-element sequence whose
element is one of the offered choices, and with a nonempty choice list
such an answer is always derived. -/
theorem derive_no_correct_answer_choice (q : Question) (r : Nat)
    (h : isFalseLit q.has_correct_answer = true) :
    (∀ a, deriveAnswer q r = some a → ∃ c ∈ q.choices, a = AnsVal.strs [c]) ∧
    (q.choices ≠ [] → ∃ c ∈ q.choices, deriveAnswer q r = some (AnsVal.strs [c])) := by
  constructor
  · intro a ha
    simp [deriveAnswer, h, randomChoice] at ha
    obtain ⟨c, hc, hca⟩ := ha
    exact ⟨c, List.getElem?_mem hc, hca.symm⟩
  · intro hne
    have hlen : 0 < q.choices.length := List.length_pos.mpr hne
    have hlt : r % q.choices.length < q.choices.length := Nat.mod_lt _ hlen
    refine ⟨q.choices.get ⟨r % q.choices.length, hlt⟩, List.get_mem _ _ _, ?_⟩
    simp [deriveAnswer, h, randomChoice, List.get?_eq_get hlt]

def qRandEx : Question :=
  ⟨12, "c", "mc", JVal.jbool false, ["p", "w"], CorrectAnswers.list ["B"]⟩

/-- Witness for C5: a question with `has_correct_answer = False` and choices
`["p", "w"]` derives a singleton answer from the choices. -/
theorem derive_no_correct_answer_choice_witness :
    ∃ c ∈ qRandEx.choices, deriveAnswer qRandEx 1 = some (AnsVal.strs [c]) :=
  (derive_no_correct_answer_choice qRandEx 1 rfl).2 (by decide)

/-- C10: the random-choice branch is guarded by the Python identity test
`is False`: it fires exactly on the boolean literal `False`, and for any
other value of `has_correct_answer` (such as null or the number 0) the
derivation agrees with the type-based dispatch, i.e. with the same
question marked as having a correct answer. -/
theorem derive_false_identity_check :
    (∀ v, isFalseLit v = true ↔ v = JVal.jbool false) ∧
    (∀ (q : Question) (r : Nat), isFalseLit q.has_correct_answer = false →
      deriveAnswer q r = deriveAnswer { q with has_correct_answer := JVal.jbool true } r) := by
  constructor
  · intro v
    cases v with
    | jbool b => cases b <;> simp [isFalseLit]
    | jnull => simp [isFalseLit]
    | jnum n => simp [isFalseLit]
    | jstr s => simp [isFalseLit]
  · intro q r h
    have htrue : isFalseLit (JVal.jbool true) = false := rfl
    simp [deriveAnswer, h, htrue]

def qNumEx : Question :=
  ⟨13, "n", "mc", JVal.jnum 0, ["p"], CorrectAnswers.list ["B"]⟩

/-- Witness for C10: with `has_correct_answer` the number `0` (falsy but not
`False`), the dispatch result is the `mc` verbatim answer, not a random
choice. -/
theorem derive_false_identity_check_witness :
    deriveAnswer qNumEx 0 =
      deriveAnswer { qNumEx with has_correct_answer := JVal.jbool true } 0 ∧
    deriveAnswer qNumEx 0 = some (AnsVal.strs ["B"]) :=
  ⟨derive_false_identity_check.2 qNumEx 0 rfl, by decide⟩

/-! ## Dictionary lemmas -/

theorem getKey?_eq_none_of_hasKey_false (m : QMap) (k : Nat)
    (h : hasKey m k = false) : getKey? m k = none := by
  induction m with
  | nil => rfl
  | cons p ps ih =>
    simp [hasKey] at h
    simp [getKey?, h.1, ih h.2]

theorem hasKey_setKey_self (m : QMap) (k : Nat) (v : QEntry) :
    hasKey (setKey m k v) k = true := by
  induction m with
  | nil => simp [setKey, hasKey]
  | cons p ps ih =>
    by_cases hp : p.1 = k
    · simp [setKey, hasKey, hp]
    · simp [setKey, hasKey, hp, ih]

theorem setKey_cons_eq (p : Nat × QEntry) (ps : QMap) (k : Nat) (v : QEntry)
    (hp : p.1 = k) : setKey (p :: ps) k v = (k, v) :: ps := by
  simp [setKey, hp]

theorem setKey_cons_ne (p : Nat × QEntry) (ps : QMap) (k : Nat) (v : QEntry)
    (hp : ¬p.1 = k) : setKey (p :: ps) k v = p :: setKey ps k v := by
  simp [setKey, hp]

theorem hasKey_cons (p : Nat × QEntry) (ps : QMap) (k : Nat) :
    hasKey (p :: ps) k = true ↔ p.1 = k ∨ hasKey ps k = true := by
  simp [hasKey]

theorem hasKey_setKey_of (m : QMap) (k' k : Nat) (v : QEntry)
    (h : hasKey m k' = true) : hasKey (setKey m k v) k' = true := by
  induction m with
  | nil => simp [hasKey] at h
  | cons p ps ih =>
    rcases (hasKey_cons p ps k').mp h with h' | h'
    · by_cases hp : p.1 = k
      · rw [setKey_cons_eq p ps k v hp]
        exact (hasKey_cons _ ps k').mpr (Or.inl (hp.symm.trans h'))
      · rw [setKey_cons_ne p ps k v hp]
        exact (hasKey_cons p _ k').mpr (Or.inl h')
    · by_cases hp : p.1 = k
      · rw [setKey_cons_eq p ps k v hp]
        exact (hasKey_cons _ ps k').mpr (Or.inr h')
      · rw [setKey_cons_ne p ps k v hp]
        exact (hasKey_cons p _ k').mpr (Or.inr (ih h'))

theorem hasKey_of_setKey (m : QMap) (k' k : Nat) (v : QEntry)
    (h : hasKey (setKey m k v) k' = true) : k' = k ∨ hasKey m k' = true := by
  induction m with
  | nil =>
    simp [setKey, hasKey] at h
    exact Or.inl h.symm
  | cons p ps ih =>
    by_cases hp : p.1 = k
    · rw [setKey_cons_eq p ps k v hp] at h
      rcases (hasKey_cons _ ps k').mp h with h' | h'
      · exact Or.inl h'.symm
      · exact Or.inr ((hasKey_cons p ps k').mpr (Or.inr h'))
    · rw [setKey_cons_ne p ps k v hp] at h
      rcases (hasKey_cons p _ k').mp h with h' | h'
      · exact Or.inr ((hasKey_cons p ps k').mpr (Or.inl h'))
      · rcases ih h' with h'' | h''
        · exact Or.inl h''
        · exact Or.inr ((hasKey_cons p ps k').mpr (Or.inr h''))

theorem getKey?_cons_eq (p : Nat × QEntry) (ps : QMap) (k : Nat)
    (hp : p.1 = k) : getKey? (p :: ps) k = some p.2 := by
  simp [getKey?, hp]

theorem getKey?_cons_ne (p : Nat × QEntry) (ps : QMap) (k : Nat)
    (hp : ¬p.1 = k) : getKey? (p :: ps) k = getKey? ps k := by
  simp [getKey?, hp]

theorem getKey?_setKey_ne (m : QMap) (k' k : Nat) (v : QEntry) (h : k' ≠ k) :
    getKey? (setKey m k v) k' = getKey? m k' := by
  induction m with
  | nil =>
    have hk : ¬(k, v).1 = k' := fun hh => h hh.symm
    simp [setKey, getKey?, hk]
  | cons p ps ih =>
    by_cases hp : p.1 = k
    · rw [setKey_cons_eq p ps k v hp]
      have h1 : ¬(k, v).1 = k' := fun hh => h hh.symm
      have h2 : ¬p.1 = k' := fun hh => h (hh.symm.trans hp)
      rw [getKey?_cons_ne _ ps k' h1, getKey?_cons_ne p ps k' h2]
    · rw [setKey_cons_ne p ps k v hp]
      by_cases hp' : p.1 = k'
      · rw [getKey?_cons_eq p _ k' hp', getKey?_cons_eq p ps k' hp']
      · rw [getKey?_cons_ne p _ k' hp', getKey?_cons_ne p ps k' hp', ih]

theorem updateMap_nil (m : QMap) : updateMap m [] = m := rfl

theorem updateMap_cons (m : QMap) (p : Nat × QEntry) (ds : QMap) :
    updateMap m (p :: ds) = updateMap (setKey m p.1 p.2) ds := rfl

theorem hasKey_updateMap_left (data : QMap) :
    ∀ (m : QMap) (k : Nat), hasKey m k = true →
      hasKey (updateMap m data) k = true := by
  induction data with
  | nil => intro m k h; exact h
  | cons p ds ih =>
    intro m k h
    rw [updateMap_cons]
    exact ih _ _ (hasKey_setKey_of _ _ _ _ h)

theorem hasKey_updateMap_right (data : QMap) :
    ∀ (m : QMap) (k : Nat), hasKey data k = true →
      hasKey (updateMap m data) k = true := by
  induction data with
  | nil => intro m k h; simp [hasKey] at h
  | cons p ds ih =>
    intro m k h
    rw [updateMap_cons]
    simp [hasKey] at h
    rcases h with h | h
    · exact hasKey_updateMap_left ds _ _ (h ▸ hasKey_setKey_self _ _ _)
    · exact ih _ _ h

theorem getKey?_updateMap_of_not (data : QMap) :
    ∀ (m : QMap) (k : Nat), hasKey data k = false →
      getKey? (updateMap m data) k = getKey? m k := by
  induction data with
  | nil => intro m k _; rfl
  | cons p ds ih =>
    intro m k h
    simp [hasKey] at h
    rw [updateMap_cons, ih _ _ h.2, getKey?_setKey_ne _ _ _ _ (fun hh => h.1 hh.symm)]

/-! ## Loader invariants -/

theorem loadGo_keys (m : QMap) (r : Nat → Nat) (qs : List Question) :
    ∀ (i : Nat) (data m' : QMap), loadGo m r i qs data = some m' →
      (∀ k, hasKey m k = true → hasKey m' k = true) ∧
      (∀ k, hasKey data k = true → hasKey m' k = true) ∧
      (∀ q ∈ qs, hasKey m' q.id = true) := by
  induction qs with
  | nil =>
    intro i data m' h
    simp [loadGo] at h
    subst h
    exact ⟨fun k hk => hasKey_updateMap_left data m k hk,
      fun k hk => hasKey_updateMap_right data m k hk, by simp⟩
  | cons q rest ih =>
    intro i data m' h
    by_cases hq : hasKey m q.id = true
    · rw [loadGo, if_pos hq] at h
      obtain ⟨h1, h2, h3⟩ := ih (i + 1) data m' h
      exact ⟨h1, h2, by
        intro p hp
        rcases List.mem_cons.mp hp with hp | hp
        · exact hp ▸ h1 q.id hq
        · exact h3 p hp⟩
    · rw [loadGo, if_neg hq] at h
      cases hda : deriveAnswer q (r i) with
      | none => rw [hda] at h; exact absurd h (by simp)
      | some a =>
        rw [hda] at h
        obtain ⟨h1, h2, h3⟩ :=
          ih (i + 1) (setKey data q.id ⟨q.question, a, q.type, q.has_correct_answer⟩) m' h
        refine ⟨h1, fun k hk => h2 k (hasKey_setKey_of _ _ _ _ hk), ?_⟩
        intro p hp
        rcases List.mem_cons.mp hp with hp | hp
        · exact hp ▸ h2 q.id (hasKey_setKey_self _ _ _)
        · exact h3 p hp

theorem loadGo_skip_all (m : QMap) (r : Nat → Nat) (qs : List Question)
    (h : ∀ q ∈ qs, hasKey m q.id = true) :
    ∀ (i : Nat) (data : QMap), loadGo m r i qs data = some (updateMap m data) := by
  induction qs with
  | nil => intro i data; rfl
  | cons q rest ih =>
    intro i data
    rw [loadGo, if_pos (h q (List.mem_cons_self q rest))]
    exact ih (fun p hp => h p (List.mem_cons_of_mem q hp)) (i + 1) data

theorem loadGo_preserves (m : QMap) (r : Nat → Nat) (qs : List Question) :
    ∀ (i : Nat) (data m' : QMap), loadGo m r i qs data = some m' →
      (∀ k, hasKey data k = true → hasKey m k = false) →
      ∀ k, hasKey m k = true → getKey? m' k = getKey? m k := by
  induction qs with
  | nil =>
    intro i data m' h hdisj k hk
    simp [loadGo] at h
    subst h
    refine getKey?_updateMap_of_not data m k ?_
    cases hd : hasKey data k with
    | false => rfl
    | true => exact absurd hk (by simp [hdisj k hd])
  | cons q rest ih =>
    intro i data m' h hdisj k hk
    by_cases hq : hasKey m q.id = true
    · rw [loadGo, if_pos hq] at h
      exact ih (i + 1) data m' h hdisj k hk
    · rw [loadGo, if_neg hq] at h
      cases hda : deriveAnswer q (r i) with
      | none => rw [hda] at h; exact absurd h (by simp)
      | some a =>
        rw [hda] at h
        refine ih (i + 1) _ m' h ?_ k hk
        intro k' hk'
        rcases hasKey_of_setKey data k' q.id _ hk' with h' | h'
        · subst h'
          exact Bool.not_eq_true _ ▸ (by simpa using hq)
        · exact hdisj k' h'

/-- C1: loading is idempotent with respect to already-loaded questions: an
id already present in the accumulated dictionary keeps exactly its old
entry, and repeating a successful load of the same question list leaves
the dictionary unchanged, so the question count after two identical
loads equals the count after one. -/
theorem load_question_data_idempotent (m m' : QMap) (qs : List Question)
    (r r' : Nat → Nat) (h : load_question_data m qs r = some m') :
    load_question_data m' qs r' = some m' ∧
    (∀ k, hasKey m k = true → getKey? m' k = getKey? m k) := by
  constructor
  · have hall := (loadGo_keys m r qs 0 [] m' h).2.2
    have := loadGo_skip_all m' r' qs hall 0 []
    rw [updateMap_nil] at this
    exact this
  · intro k hk
    refine loadGo_preserves m r qs 0 [] m' h ?_ k hk
    intro k' hk'
    simp [hasKey] at hk'

def qLoadEx : Question :=
  ⟨21, "w", "mc", JVal.jbool true, [], CorrectAnswers.list ["B"]⟩

def qmapLoadEx : QMap :=
  [(21, ⟨"w", AnsVal.strs ["B"], "mc", JVal.jbool true⟩)]

/-- Witness for C1: a second load of the same one-question chapter returns
the dictionary produced by the first load unchanged. -/
theorem load_question_data_idempotent_witness :
    load_question_data qmapLoadEx [qLoadEx] (fun _ => 1) = some qmapLoadEx ∧
    (∀ k, hasKey ([] : QMap) k = true →
      getKey? qmapLoadEx k = getKey? ([] : QMap) k) :=
  load_question_data_idempotent [] qmapLoadEx [qLoadEx] (fun _ => 0) (fun _ => 1)
    (by decide)

/-! ## Claims about submitting and construction -/

/-- C6: submitting an answer for an id that was never loaded prints a
message to the caller, returns `None`, performs no POST, and leaves the
accumulated dictionary unchanged. -/
theorem answer_question_not_loaded (m : QMap) (qid : Nat) (respText : String)
    (h : hasKey m qid = false) :
    (answer_question m qid respText).1.printed =
      ["Question ID has not been loaded: " ++ Nat.repr qid] ∧
    (answer_question m qid respText).1.result = none ∧
    (answer_question m qid respText).1.submitted = none ∧
    (answer_question m qid respText).2 = m := by
  have hg := getKey?_eq_none_of_hasKey_false m qid h
  simp [answer_question, hg]

def qmapSubmitEx : QMap :=
  [(30, ⟨"s", AnsVal.strs ["A"], "mc", JVal.jbool true⟩)]

/-- Witness for C6: submitting id 7 against a one-entry dictionary that does
not contain it. -/
theorem answer_question_not_loaded_witness :
    (answer_question qmapSubmitEx 7 "resp").1.printed =
      ["Question ID has not been loaded: " ++ Nat.repr 7] ∧
    (answer_question qmapSubmitEx 7 "resp").1.result = none ∧
    (answer_question qmapSubmitEx 7 "resp").1.submitted = none ∧
    (answer_question qmapSubmitEx 7 "resp").2 = qmapSubmitEx :=
  answer_question_not_loaded qmapSubmitEx 7 "resp" (by decide)

/-- C8: construction fails fatally when the CSRF bootstrap sets no
`csrftoken` cookie or the login response lacks the `TH_JWT` header; in
either case no client is produced. -/
theorem construct_fatal_on_missing (env : HttpEnv) :
    (env.csrfCookie = none →
      constructClient env = Except.error SetupError.missingCsrfCookie) ∧
    (env.csrfCookie ≠ none → env.loginJwt = none →
      constructClient env = Except.error SetupError.missingJwtHeader) ∧
    (env.csrfCookie = none ∨ env.loginJwt = none →
      ∀ c, constructClient env ≠ Except.ok c) := by
  refine ⟨?_, ?_, ?_⟩
  · intro h
    simp [constructClient, h]
  · intro h1 h2
    cases hc : env.csrfCookie with
    | none => exact absurd hc h1
    | some tok => simp [constructClient, hc, h2]
  · intro h c
    rcases h with h | h
    · simp [constructClient, h]
    · cases hc : env.csrfCookie with
      | none => simp [constructClient, hc]
      | some tok => simp [constructClient, hc, h]

/-- Witness for C8: an environment with neither the CSRF cookie nor the
login token yields the CSRF construction error. -/
theorem construct_fatal_on_missing_witness :
    constructClient ⟨none, none, []⟩ = Except.error SetupError.missingCsrfCookie :=
  (construct_fatal_on_missing ⟨none, none, []⟩).1 rfl

/-! ## Order lemmas for the fitbq sort -/

theorem lexLt_trans : ∀ as bs cs : List Char,
    lexLt as bs = true → lexLt bs cs = true → lexLt as cs = true := by
  intro as
  induction as with
  | nil =>
    intro bs cs h1 h2
    cases bs with
    | nil => exact h2
    | cons b bs' =>
      cases cs with
      | nil => simp [lexLt] at h2
      | cons c cs' => simp [lexLt]
  | cons a as' ih =>
    intro bs cs h1 h2
    cases bs with
    | nil => simp [lexLt] at h1
    | cons b bs' =>
      cases cs with
      | nil => simp [lexLt] at h2
      | cons c cs' =>
        simp only [lexLt, charLt, Bool.or_eq_true, Bool.and_eq_true,
          decide_eq_true_eq, beq_iff_eq] at h1 h2 ⊢
        rcases h1 with h1 | ⟨hab, h1⟩
        · rcases h2 with h2 | ⟨hbc, h2⟩
          · exact Or.inl (lt_trans h1 h2)
          · exact Or.inl (hbc ▸ h1)
        · rcases h2 with h2 | ⟨hbc, h2⟩
          · exact Or.inl (hab ▸ h2)
          · exact Or.inr ⟨hab.trans hbc, ih bs' cs' h1 h2⟩

theorem lexLt_connex : ∀ as bs : List Char,
    lexLt as bs = false → lexLt bs as = false → as = bs := by
  intro as
  induction as with
  | nil =>
    intro bs h1 h2
    cases bs with
    | nil => rfl
    | cons b bs' => simp [lexLt] at h1
  | cons a as' ih =>
    intro bs h1 h2
    cases bs with
    | nil => simp [lexLt] at h2
    | cons b bs' =>
      simp only [lexLt, charLt, Bool.or_eq_false_iff, Bool.and_eq_false_iff,
        decide_eq_false_iff_not, beq_eq_false_iff_ne, ne_eq] at h1 h2
      have hab : a = b := le_antisymm (not_lt.mp h2.1) (not_lt.mp h1.1)
      have h1' : lexLt as' bs' = false := by
        rcases h1.2 with h | h
        · exact absurd hab h
        · exact h
      have h2' : lexLt bs' as' = false := by
        rcases h2.2 with h | h
        · exact absurd hab.symm h
        · exact h
      rw [hab, ih bs' h1' h2']

theorem strLt_trans (a b c : String) (h1 : strLt a b = true)
    (h2 : strLt b c = true) : strLt a c = true :=
  lexLt_trans a.data b.data c.data h1 h2

theorem strLt_connex (a b : String) (h1 : strLt a b = false)
    (h2 : strLt b a = false) : a = b := by
  cases a with
  | mk da =>
    cases b with
    | mk db =>
      have : da = db := lexLt_connex da db h1 h2
      rw [this]

theorem strLe_trans (a b c : String) (h1 : strLe a b = true)
    (h2 : strLe b c = true) : strLe a c = true := by
  simp only [strLe, Bool.or_eq_true, beq_iff_eq] at h1 h2 ⊢
  rcases h1 with h1 | h1
  · rcases h2 with h2 | h2
    · exact Or.inl (strLt_trans a b c h1 h2)
    · exact Or.inl (h2 ▸ h1)
  · rcases h2 with h2 | h2
    · exact Or.inl (h1 ▸ h2)
    · exact Or.inr (h1.trans h2)

theorem strLe_total (a b : String) (h : strLe a b = false) : strLe b a = true := by
  simp only [strLe, Bool.or_eq_false_iff, Bool.or_eq_true, beq_iff_eq,
    beq_eq_false_iff_ne, ne_eq] at h ⊢
  cases hba : strLt b a with
  | true => exact Or.inl rfl
  | false => exact absurd (strLt_connex a b h.1 hba) h.2

instance : IsTrans (String × String) PairLeR := by
  refine ⟨fun a b c h1 h2 => ?_⟩
  simp only [PairLeR, pairLe, Bool.or_eq_true, Bool.and_eq_true, beq_iff_eq] at h1 h2 ⊢
  rcases h1 with h1 | ⟨h1, h1'⟩
  · rcases h2 with h2 | ⟨h2, _⟩
    · exact Or.inl (strLt_trans _ _ _ h1 h2)
    · exact Or.inl (h2 ▸ h1)
  · rcases h2 with h2 | ⟨h2, h2'⟩
    · exact Or.inl (h1 ▸ h2)
    · exact Or.inr ⟨h1.trans h2, strLe_trans _ _ _ h1' h2'⟩

instance : IsTotal (String × String) PairLeR := by
  refine ⟨fun a b => ?_⟩
  simp only [PairLeR, pairLe, Bool.or_eq_true, Bool.and_eq_true, beq_iff_eq]
  cases h1 : strLt a.1 b.1 with
  | true => exact Or.inl (Or.inl rfl)
  | false =>
    cases h2 : strLt b.1 a.1 with
    | true => exact Or.inr (Or.inl rfl)
    | false =>
      have hk : a.1 = b.1 := strLt_connex a.1 b.1 h1 h2
      cases h3 : strLe a.2 b.2 with
      | true => exact Or.inl (Or.inr ⟨hk, rfl⟩)
      | false => exact Or.inr (Or.inr ⟨hk.symm, strLe_total a.2 b.2 h3⟩)

theorem pairLe_key_le (a b : String × String) (h : PairLeR a b) :
    strLe a.1 b.1 = true := by
  simp only [PairLeR, pairLe, Bool.or_eq_true, Bool.and_eq_true, beq_iff_eq] at h
  simp only [strLe, Bool.or_eq_true, beq_iff_eq]
  rcases h with h | ⟨h, _⟩
  · exact Or.inl h
  · exact Or.inr h

/-- C4: for a question with a known correct answer, type `"fitbq"`, and a
dict-shaped `correct_answers` field, the derived answer is the sequence
of the dict's values ordered by ascending key (the sorted items' second
components; the sort is a permutation of the items, ascending in the
keys). -/
theorem derive_fitbq_sorted_values (q : Question) (r : Nat)
    (ps : List (String × String)) (hty : q.type = "fitbq")
    (hca : q.has_correct_answer = JVal.jbool true)
    (hm : q.correct_answers = CorrectAnswers.map ps) :
    deriveAnswer q r = some (AnsVal.strs ((sortPairs ps).map Prod.snd)) ∧
    (sortPairs ps).Perm ps ∧
    (sortPairs ps).Pairwise (fun a b => strLe a.1 b.1 = true) := by
  refine ⟨by simp [deriveAnswer, hty, hca, hm, isFalseLit], ?_, ?_⟩
  · exact List.perm_insertionSort PairLeR ps
  · exact List.Pairwise.imp (fun h => pairLe_key_le _ _ h)
      (List.sorted_insertionSort PairLeR ps)

def qFitbqEx : Question :=
  ⟨14, "f", "fitbq", JVal.jbool true, [], CorrectAnswers.map [("2", "foo"), ("1", "bar")]⟩

/-- Witness for C4: for correct answers `{"2": "foo", "1": "bar"}` the
derived answer is `["bar", "foo"]`, ordered by key. -/
theorem derive_fitbq_sorted_values_witness :
    deriveAnswer qFitbqEx 0 = some (AnsVal.strs ["bar", "foo"]) := by
  have h := (derive_fitbq_sorted_values qFitbqEx 0 [("2", "foo"), ("1", "bar")]
    rfl rfl rfl).1
  rw [h]
  decide

/-! ## Claims about chapter filtering -/

/-- C7: the required chapters are exactly those whose display name starts
with `"Chapter"` and does not contain `"OPTIONAL"`, and a non-empty
chapter-number filter restricts loading to exactly the required
chapters whose names start with `"Chapter "` followed by one of the
given numbers. -/
theorem required_chapters_filtering (chapters : List (String × Nat))
    (p : String × Nat) (ns : List Nat) (hns : ns ≠ []) :
    (p ∈ required_chapters chapters ↔
      p ∈ chapters ∧ pyStartsWith p.1 "Chapter" = true ∧
        pyContains p.1 "OPTIONAL" = false) ∧
    loadChaptersSelect chapters (some ns) =
      (required_chapters chapters).filter
        (fun c => ns.any (fun i => pyStartsWith c.1 ("Chapter " ++ Nat.repr i))) := by
  constructor
  · rw [required_chapters, List.mem_filter]
    simp only [Bool.and_eq_true, Bool.not_eq_true', and_assoc]
  · have hmap : (ns.map (fun i => "Chapter " ++ Nat.repr i)).isEmpty = false := by
      cases ns with
      | nil => exact absurd rfl hns
      | cons n ns' => rfl
    simp only [loadChaptersSelect, Option.getD_some, validPrefixes, hmap,
      Bool.false_eq_true, if_false, pyStartsWithAny]
    refine List.filter_congr (fun c _ => ?_)
    clear hmap hns
    induction ns with
    | nil => rfl
    | cons n ns' ih => simp only [List.map_cons, List.any_cons, ih]

def chaptersEx : List (String × Nat) :=
  [("Chapter 3: Intro", 1), ("Chapter 3 OPTIONAL", 2), ("Appendix", 3),
    ("Chapter 10: Memory", 4)]

/-- Witness for C7: on a concrete chapter mapping, "Chapter 3: Intro" is
required, and filtering by chapter number 3 selects the chapters whose
names start with "Chapter 3". -/
theorem required_chapters_filtering_witness :
    (("Chapter 3: Intro", 1) ∈ required_chapters chaptersEx ↔
      ("Chapter 3: Intro", 1) ∈ chaptersEx ∧
        pyStartsWith "Chapter 3: Intro" "Chapter" = true ∧
        pyContains "Chapter 3: Intro" "OPTIONAL" = false) ∧
    loadChaptersSelect chaptersEx (some [3]) =
      (required_chapters chaptersEx).filter
        (fun c => [3].any (fun i => pyStartsWith c.1 ("Chapter " ++ Nat.repr i))) :=
  required_chapters_filtering chaptersEx ("Chapter 3: Intro", 1) [3] (by decide)

/-- C9: passing an explicit empty chapter-number list to `_load_chapters`
behaves identically to passing no filter at all, and the empty filter
selects every required chapter (the prefix tuple collapses to the empty
string, which every name starts with). -/
theorem load_chapters_empty_filter (chapters : List (String × Nat)) :
    (∀ (qdata : Nat → List Question) (r : Nat → Nat → Nat) (m : QMap),
      loadChaptersRun chapters none qdata r m =
        loadChaptersRun chapters (some []) qdata r m) ∧
    loadChaptersSelect chapters none = loadChaptersSelect chapters (some []) ∧
    loadChaptersSelect chapters (some []) = required_chapters chapters := by
  refine ⟨fun qdata r m => rfl, rfl, ?_⟩
  simp only [loadChaptersSelect, Option.getD_some, validPrefixes, List.map_nil,
    List.isEmpty_nil, if_true, pyStartsWithAny, pyStartsWith]
  exact List.filter_eq_self.mpr (fun c _ => by simp [List.isPrefixOf])

end TopHat
